import Mathlib

/-!
Verification of the `slice` tool (src/main.rs): range-resolution and the
windowed streaming slice engine.

Modelling conventions:
* A byte is a `Nat`; the newline byte is `10`.
* The byte source is a list of read results: `SrcItem.byte c` is a successful
  one-byte read, `SrcItem.fail` is a read that fails with an I/O error, and the
  end of the list is clean end-of-input (`read_char` returning `Ok(None)`).
* The sink (a buffered writer) is modelled by an optional budget: `none` never
  fails, `some k` accepts `k` more single-byte writes and then fails with an
  I/O error.  The bytes written are returned as the result list.
* `usize` counters (`i`, `qn`) are modelled as unbounded naturals: on the two
  code paths where they are only ever incremented, or decremented by a value
  that is provably no larger (the queue invariant), overflow cannot occur for
  any input shorter than `2^64` bytes.  The two subtractions that *can*
  underflow at realistic inputs — `m - n` in the `+N` end resolution and
  `i + n - m` in Case C — are modelled by `wsub`, the wrapping subtraction
  modulo `2^64` produced by a release-mode build.
* `VecDeque::pop_front().unwrap()` on an empty queue is a panic, modelled as
  the distinguished error `Err.panicked`.
-/

namespace Slice

/-- The `SliceIdx` enum (main.rs lines 8-12): one side of a range, anchored at
the start or at the end of the stream. -/
inductive SliceIdx where
  | fromStart (n : Nat)
  | fromEnd (n : Nat)
deriving DecidableEq

/-- The counting mode (`CountModeEnum`, main.rs lines 134-138), selecting the
unit-counting policy. -/
inductive CountModeEnum where
  | byte
  | line
deriving DecidableEq

/-- `CountMode::count` (main.rs lines 113-132): `CountModeByte` counts every
byte as one unit; `CountModeLine` counts a byte as one unit iff it is the
newline byte `10`. -/
def count : CountModeEnum → Nat → Nat
  | .byte, _ => 1
  | .line, c => if c = 10 then 1 else 0

/-- Errors the engine can produce: a propagated I/O error, or a panic
(`unwrap` of `None`). -/
inductive Err where
  | io
  | panicked
deriving DecidableEq

/-- One item of the byte source: a successfully read byte or a failing read. -/
inductive SrcItem where
  | byte (c : Nat)
  | fail
deriving DecidableEq

/-- A byte source: the reads it will serve, ending in clean end-of-input. -/
abbrev Src := List SrcItem

/-- A source that serves exactly the bytes `bs` and then clean end-of-input. -/
def cleanSrc (bs : List Nat) : Src := bs.map SrcItem.byte

/-- The sink's write budget: `none` never fails; `some k` allows `k` more
one-byte writes before a write fails. -/
abbrev Sink := Option Nat

/-- One `write_all(&[c])` call against the sink budget. -/
def writeByte : Sink → Except Err Sink
  | none => .ok none
  | some 0 => .error .io
  | some (k + 1) => .ok (some k)

/-- Wrapping (release-mode) `usize` subtraction: `(a - b) mod 2^64`. -/
def wsub (a b : Nat) : Nat := (a + (2 ^ 64 - b % 2 ^ 64)) % 2 ^ 64

/-- The `Option<&str>` shapes the end part of the range string can take after
`main` inspects it (main.rs lines 48-58): empty, `+N`, or a signed integer. -/
inductive EndSpec where
  | empty
  | plus (n : Nat)
  | int (v : Int)

/-- `From<isize> for SliceIdx` (main.rs lines 13-21). -/
def sliceIdxOfInt (v : Int) : SliceIdx :=
  if 0 ≤ v then .fromStart v.toNat else .fromEnd (-v).toNat

/-- Resolution of the end part of the range (main.rs lines 48-58), given the
already-resolved start boundary.  `usize` arithmetic is wrapping, as compiled
in release mode: there is no overflow check and no dedicated error. -/
def resolveEnd (start : SliceIdx) : EndSpec → SliceIdx
  | .empty => .fromEnd 0
  | .plus n =>
    match start with
    | .fromStart m => .fromStart ((m + n) % 2 ^ 64)
    | .fromEnd m => .fromEnd (wsub m n)
  | .int v => sliceIdxOfInt v

/-- Case A loop (main.rs lines 182-197): stream byte-by-byte with a running
unit counter `i`; emit a byte iff `i ≥ n`; stop once `i ≥ m`. -/
def caseALoop (mode : CountModeEnum) (n m : Nat) :
    Src → Nat → List Nat → Sink → Except Err (List Nat)
  | [], _, out, _ => .ok out
  | .fail :: _, _, _, _ => .error .io
  | .byte c :: rest, i, out, snk =>
    if n ≤ i then
      match writeByte snk with
      | .error e => .error e
      | .ok snk' =>
        if m ≤ i + count mode c then .ok (out ++ [c])
        else caseALoop mode n m rest (i + count mode c) (out ++ [c]) snk'
    else
      if m ≤ i + count mode c then .ok out
      else caseALoop mode n m rest (i + count mode c) out snk

/-- The skip of the first `n` raw bytes in Case B (main.rs lines 200-205).
`.ok none` means clean end-of-input was reached during the skip (the slice
ends with empty remaining work); `.ok (some src)` is the remaining source. -/
def skipN : Nat → Src → Except Err (Option Src)
  | 0, src => .ok (some src)
  | _ + 1, [] => .ok none
  | _ + 1, .fail :: _ => .error .io
  | n + 1, .byte _ :: rest => skipN n rest

/-- The `while qn > m` pop/emit loop of Case B (main.rs lines 216-220):
pop the queue front, subtract its unit count from `qn`, and write it.
An empty queue with `qn > m` is the `unwrap` panic. -/
def caseBPops (mode : CountModeEnum) (m : Nat) :
    List Nat → Nat → List Nat → Sink → Except Err (List Nat × Nat × List Nat × Sink)
  | [], qn, out, snk =>
    if m < qn then .error .panicked else .ok ([], qn, out, snk)
  | front :: q, qn, out, snk =>
    if m < qn then
      match writeByte snk with
      | .error e => .error e
      | .ok snk' => caseBPops mode m q (qn - count mode front) (out ++ [front]) snk'
    else .ok (front :: q, qn, out, snk)

/-- Case B main loop (main.rs lines 208-221): push each incoming byte onto the
queue, add its unit count to `qn`, then run the pop/emit loop. -/
def caseBLoop (mode : CountModeEnum) (m : Nat) :
    Src → List Nat → Nat → List Nat → Sink → Except Err (List Nat)
  | [], _, _, out, _ => .ok out
  | .fail :: _, _, _, _, _ => .error .io
  | .byte c :: rest, q, qn, out, snk =>
    match caseBPops mode m (q ++ [c]) (qn + count mode c) out snk with
    | .error e => .error e
    | .ok (q', qn', out', snk') => caseBLoop mode m rest q' qn' out' snk'

/-- The `while qn > n` eviction loop of Case C (main.rs lines 235-240):
pop the queue front, subtract its unit count from `qn`, add it to `i`. -/
def caseCPops (mode : CountModeEnum) (n : Nat) :
    List Nat → Nat → Nat → Except Err (List Nat × Nat × Nat)
  | [], qn, i =>
    if n < qn then .error .panicked else .ok ([], qn, i)
  | front :: q, qn, i =>
    if n < qn then caseCPops mode n q (qn - count mode front) (i + count mode front)
    else .ok (front :: q, qn, i)

/-- Case C accumulation loop (main.rs lines 227-241): read to end of input,
keeping a trailing window of at most `n` units and counting evicted units
in `i`. -/
def caseCLoop (mode : CountModeEnum) (n : Nat) :
    Src → List Nat → Nat → Nat → Except Err (List Nat × Nat × Nat)
  | [], q, qn, i => .ok (q, qn, i)
  | .fail :: _, _, _, _ => .error .io
  | .byte c :: rest, q, qn, i =>
    match caseCPops mode n (q ++ [c]) (qn + count mode c) i with
    | .error e => .error e
    | .ok (q', qn', i') => caseCLoop mode n rest q' qn' i'

/-- Case C emission loop (main.rs lines 246-253): pop and write from the
window while the unit cursor `i` is below the resolved end `m`; an empty queue
breaks the loop normally. -/
def caseCEmit (mode : CountModeEnum) (m : Nat) :
    List Nat → Nat → List Nat → Sink → Except Err (List Nat)
  | [], _, out, _ => .ok out
  | c :: q, i, out, snk =>
    if i < m then
      match writeByte snk with
      | .error e => .error e
      | .ok snk' => caseCEmit mode m q (i + count mode c) (out ++ [c]) snk'
    else .ok out

/-- `slice_stream` (main.rs lines 167-255), dispatched over the counting mode
as `slice_stream_wrapper` does (lines 140-151).  Returns the bytes written to
the sink. -/
def sliceStream (mode : CountModeEnum) (a b : SliceIdx) (src : Src) (snk : Sink) :
    Except Err (List Nat) :=
  match a, b with
  | .fromStart n, .fromStart m =>
    if n ≥ m then .ok [] else caseALoop mode n m src 0 [] snk
  | .fromStart n, .fromEnd m =>
    match skipN n src with
    | .error e => .error e
    | .ok none => .ok []
    | .ok (some src') => caseBLoop mode m src' [] 0 [] snk
  | .fromEnd n, b =>
    match caseCLoop mode n src [] 0 0 with
    | .error e => .error e
    | .ok (q, _, i) =>
      let m' :=
        match b with
        | .fromStart m => m
        | .fromEnd m => wsub (i + n) m
      caseCEmit mode m' q i [] snk

/-- The absolute offset a boundary resolves to against a known length (the
seekable fast path of `main`, main.rs lines 88-97). -/
def resolveAbs (idx : SliceIdx) (size : Int) : Int :=
  match idx with
  | .fromStart n => (n : Int)
  | .fromEnd n => size - (n : Int)

/-- `isize::clamp(0, size)`. -/
def clampIdx (v size : Int) : Int := min (max v 0) size

/-- The seekable byte-mode fast path of `main` (main.rs lines 83-103), on a
source whose full contents are `input`: clamp both resolved offsets to
`[0, size]`; emit nothing if `start ≥ end`, else seek to `start` and copy
`end - start` bytes. -/
def fastPath (a b : SliceIdx) (input : List Nat) : List Nat :=
  let size : Int := input.length
  let s := clampIdx (resolveAbs a size) size
  let e := clampIdx (resolveAbs b size) size
  if s ≥ e then [] else (input.drop s.toNat).take (e - s).toNat

/-! ### Specification-side functions

These express what the engine computes, in terms of the unit-position space of
section 3 of the design: the position of a byte is the number of units
completed strictly before it, and a byte belongs to the range iff
`start ≤ position < end`. -/

/-- Total unit count of a byte list. -/
def unitSum (mode : CountModeEnum) : List Nat → Nat
  | [] => 0
  | c :: r => count mode c + unitSum mode r

/-- The bytes of `l` whose unit position (units completed strictly before
them, starting from `i`) lies in `[a, b)`. -/
def posFilter (mode : CountModeEnum) (a b : Nat) : List Nat → Nat → List Nat
  | [], _ => []
  | c :: r, i =>
    (if a ≤ i ∧ i < b then [c] else []) ++ posFilter mode a b r (i + count mode c)

/-- The longest suffix of `l` whose unit count is at most `m`: the window the
Case B / Case C queue holds once the whole list has been pushed through it. -/
def maxTail (mode : CountModeEnum) (m : Nat) : List Nat → List Nat
  | [] => []
  | c :: r => if unitSum mode (c :: r) ≤ m then c :: r else maxTail mode m r

/-- The complementary prefix of `maxTail`: the bytes the Case B / Case C queue
pops (in order) while pushing `l` through it. -/
def dropTail (mode : CountModeEnum) (m : Nat) : List Nat → List Nat
  | [] => []
  | c :: r => if unitSum mode (c :: r) ≤ m then [] else c :: dropTail mode m r

/-- The prefix of `l` emitted by the Case C emission loop: bytes in order while
the running unit cursor (starting at `i`) stays below `m`. -/
def emitWhile (mode : CountModeEnum) (m : Nat) : List Nat → Nat → List Nat
  | [], _ => []
  | c :: r, i => if i < m then c :: emitWhile mode m r (i + count mode c) else []

/-! ### Basic lemmas about the unit-counting policy and position space -/

theorem count_le_one (mode : CountModeEnum) (c : Nat) : count mode c ≤ 1 := by
  cases mode with
  | byte => exact le_refl 1
  | line => simp only [count]; split <;> omega

theorem unitSum_append (mode : CountModeEnum) (x y : List Nat) :
    unitSum mode (x ++ y) = unitSum mode x + unitSum mode y := by
  induction x with
  | nil => simp [unitSum]
  | cons c r ih => simp [unitSum, ih]; omega

theorem unitSum_le_length (mode : CountModeEnum) (l : List Nat) :
    unitSum mode l ≤ l.length := by
  induction l with
  | nil => simp [unitSum]
  | cons c r ih =>
    have := count_le_one mode c
    simp only [unitSum, List.length_cons]
    omega

theorem posFilter_stop (mode : CountModeEnum) (a b : Nat) (l : List Nat) (i : Nat)
    (h : b ≤ i) : posFilter mode a b l i = [] := by
  induction l generalizing i with
  | nil => rfl
  | cons c r ih =>
    simp only [posFilter]
    rw [if_neg (by omega), ih (i + count mode c) (by omega)]
    rfl

theorem posFilter_empty_range (mode : CountModeEnum) (a b : Nat) (l : List Nat) (i : Nat)
    (h : b ≤ a) : posFilter mode a b l i = [] := by
  induction l generalizing i with
  | nil => rfl
  | cons c r ih =>
    simp only [posFilter]
    rw [if_neg (by omega), ih (i + count mode c)]
    rfl

theorem posFilter_append (mode : CountModeEnum) (a b : Nat) (x y : List Nat) (i : Nat) :
    posFilter mode a b (x ++ y) i
      = posFilter mode a b x i ++ posFilter mode a b y (i + unitSum mode x) := by
  induction x generalizing i with
  | nil => simp [posFilter, unitSum]
  | cons c r ih =>
    simp only [List.cons_append, posFilter, unitSum, List.append_eq,
      ih (i + count mode c), List.append_assoc, Nat.add_assoc]

theorem posFilter_byte (a b : Nat) (l : List Nat) (i : Nat) :
    posFilter .byte a b l i = (l.take (b - i)).drop (a - i) := by
  induction l generalizing i with
  | nil => simp [posFilter]
  | cons c r ih =>
    by_cases hb : i < b
    · have hbi : b - i = (b - (i + 1)) + 1 := by omega
      by_cases ha : a ≤ i
      · simp only [posFilter, count, ih (i + 1)]
        rw [if_pos (show a ≤ i ∧ i < b from ⟨ha, hb⟩), hbi]
        simp only [List.take_succ_cons, List.cons_append, List.nil_append]
        rw [show a - i = 0 by omega, show a - (i + 1) = 0 by omega, List.drop_zero,
          List.drop_zero]
      · simp only [posFilter, count, ih (i + 1)]
        rw [if_neg (show ¬ (a ≤ i ∧ i < b) by omega), hbi]
        simp only [List.take_succ_cons, List.nil_append]
        have hai : a - i = (a - (i + 1)) + 1 := by omega
        rw [hai, List.drop_succ_cons]
    · rw [posFilter_stop _ _ _ _ _ (by omega), show b - i = 0 by omega]
      simp

/-! ### Lemmas about the trailing window (`maxTail` / `dropTail`) -/

theorem dropTail_append_maxTail (mode : CountModeEnum) (m : Nat) (l : List Nat) :
    dropTail mode m l ++ maxTail mode m l = l := by
  induction l with
  | nil => rfl
  | cons c r ih =>
    simp only [dropTail, maxTail]
    split
    · rfl
    · simp [ih]

theorem maxTail_sum_le (mode : CountModeEnum) (m : Nat) (l : List Nat) :
    unitSum mode (maxTail mode m l) ≤ m := by
  induction l with
  | nil => simp [maxTail, unitSum]
  | cons c r ih =>
    simp only [maxTail]
    split
    · assumption
    · exact ih

theorem maxTail_of_le (mode : CountModeEnum) (m : Nat) (l : List Nat)
    (h : unitSum mode l ≤ m) : maxTail mode m l = l := by
  cases l with
  | nil => rfl
  | cons c r => simp [maxTail, h]

theorem dropTail_of_le (mode : CountModeEnum) (m : Nat) (l : List Nat)
    (h : unitSum mode l ≤ m) : dropTail mode m l = [] := by
  cases l with
  | nil => rfl
  | cons c r => simp [dropTail, h]

theorem maxTail_append_absorb (mode : CountModeEnum) (m : Nat) (l y : List Nat) :
    maxTail mode m (l ++ y) = maxTail mode m (maxTail mode m l ++ y) := by
  induction l with
  | nil => rfl
  | cons c r ih =>
    by_cases h : unitSum mode (c :: r) ≤ m
    · rw [maxTail_of_le mode m (c :: r) h]
    · have h2 : ¬ unitSum mode ((c :: r) ++ y) ≤ m := by
        rw [unitSum_append]
        simp only [unitSum] at h ⊢
        omega
      rw [show maxTail mode m (c :: r) = maxTail mode m r by simp [maxTail, h]]
      rw [show ((c :: r) ++ y) = c :: (r ++ y) by simp]
      rw [show maxTail mode m (c :: (r ++ y)) = maxTail mode m (r ++ y) by
        simp only [maxTail]
        rw [if_neg (by simpa [unitSum_append, unitSum] using h2)]]
      exact ih

theorem dropTail_append_absorb (mode : CountModeEnum) (m : Nat) (l y : List Nat) :
    dropTail mode m (l ++ y)
      = dropTail mode m l ++ dropTail mode m (maxTail mode m l ++ y) := by
  induction l with
  | nil => rfl
  | cons c r ih =>
    by_cases h : unitSum mode (c :: r) ≤ m
    · rw [maxTail_of_le mode m (c :: r) h, dropTail_of_le mode m (c :: r) h]
      rfl
    · have h2 : ¬ unitSum mode (c :: (r ++ y)) ≤ m := by
        rw [show (c :: (r ++ y)) = (c :: r) ++ y by simp, unitSum_append]
        simp only [unitSum] at h ⊢
        omega
      rw [show ((c :: r) ++ y) = c :: (r ++ y) by simp]
      rw [show dropTail mode m (c :: (r ++ y)) = c :: dropTail mode m (r ++ y) by
        simp [dropTail, h2]]
      rw [show dropTail mode m (c :: r) = c :: dropTail mode m r by simp [dropTail, h]]
      rw [show maxTail mode m (c :: r) = maxTail mode m r by simp [maxTail, h]]
      simp [ih]

theorem dropTail_units_pos (mode : CountModeEnum) (m : Nat) (l : List Nat)
    (h : dropTail mode m l ≠ []) : 1 ≤ unitSum mode (dropTail mode m l) := by
  induction l with
  | nil => simp [dropTail] at h
  | cons c r ih =>
    by_cases hle : unitSum mode (c :: r) ≤ m
    · rw [dropTail_of_le mode m _ hle] at h
      simp at h
    · rw [show dropTail mode m (c :: r) = c :: dropTail mode m r by simp [dropTail, hle]]
      simp only [unitSum]
      by_cases hc : count mode c = 0
      · have hr : ¬ unitSum mode r ≤ m := by
          simp only [unitSum] at hle
          omega
        have hne : dropTail mode m r ≠ [] := by
          intro hnil
          cases r with
          | nil => simp [unitSum] at hr
          | cons d s =>
            by_cases hle2 : unitSum mode (d :: s) ≤ m
            · exact hr hle2
            · simp [dropTail, hle2] at hnil
        have := ih hne
        omega
      · omega

theorem posFilter_dropTail (mode : CountModeEnum) (m a b : Nat) (l : List Nat) (i : Nat)
    (h : i + unitSum mode (dropTail mode m l) ≤ a) :
    posFilter mode a b (dropTail mode m l) i = [] := by
  induction l generalizing i with
  | nil => rfl
  | cons c r ih =>
    by_cases hle : unitSum mode (c :: r) ≤ m
    · rw [dropTail_of_le mode m _ hle]
      rfl
    · have hd : dropTail mode m (c :: r) = c :: dropTail mode m r := by
        simp [dropTail, hle]
      have hpos : 1 ≤ unitSum mode (dropTail mode m (c :: r)) :=
        dropTail_units_pos mode m (c :: r) (by rw [hd]; simp)
      rw [hd] at h hpos ⊢
      simp only [unitSum] at h hpos
      simp only [posFilter]
      rw [if_neg (by omega), ih (i + count mode c) (by omega)]
      rfl

theorem maxTail_isSuffix (mode : CountModeEnum) (m : Nat) (l : List Nat) :
    (maxTail mode m l).IsSuffix l := by
  induction l with
  | nil => exact List.suffix_refl []
  | cons c r ih =>
    simp only [maxTail]
    split
    · exact List.suffix_refl _
    · exact ih.trans (List.suffix_cons c r)

theorem maxTail_suffix_mono (mode : CountModeEnum) (m' m : Nat) (l : List Nat)
    (h : m' ≤ m) : (maxTail mode m' l).IsSuffix (maxTail mode m l) := by
  induction l with
  | nil => exact List.suffix_refl []
  | cons c r ih =>
    by_cases h1 : unitSum mode (c :: r) ≤ m'
    · rw [maxTail_of_le mode m' _ h1, maxTail_of_le mode m _ (le_trans h1 h)]
    · rw [show maxTail mode m' (c :: r) = maxTail mode m' r by simp [maxTail, h1]]
      by_cases h2 : unitSum mode (c :: r) ≤ m
      · rw [maxTail_of_le mode m _ h2]
        exact (maxTail_isSuffix mode m' r).trans (List.suffix_cons c r)
      · rw [show maxTail mode m (c :: r) = maxTail mode m r by simp [maxTail, h2]]
        exact ih

/-! ### Lemmas about the emission cursor -/

theorem emitWhile_all (mode : CountModeEnum) (m : Nat) (q : List Nat) (i : Nat)
    (h : i + unitSum mode q < m) : emitWhile mode m q i = q := by
  induction q generalizing i with
  | nil => rfl
  | cons c r ih =>
    simp only [unitSum] at h
    simp only [emitWhile]
    rw [if_pos (by omega), ih (i + count mode c) (by omega)]

theorem posFilter_eq_emitWhile (mode : CountModeEnum) (a b : Nat) (q : List Nat) (i : Nat)
    (h : a ≤ i) : posFilter mode a b q i = emitWhile mode b q i := by
  induction q generalizing i with
  | nil => rfl
  | cons c r ih =>
    by_cases hb : i < b
    · simp only [posFilter, emitWhile]
      rw [if_pos ⟨h, hb⟩, if_pos hb, ih (i + count mode c) (by omega)]
      rfl
    · simp only [posFilter, emitWhile]
      rw [if_neg (by omega), if_neg hb,
        posFilter_stop mode a b r (i + count mode c) (by omega)]
      rfl

/-! ### Wrapping subtraction -/

theorem wsub_eq (a b : Nat) (hb : b ≤ a) (ha : a < 2 ^ 64) : wsub a b = a - b := by
  unfold wsub
  have hb64 : b < 2 ^ 64 := lt_of_le_of_lt hb ha
  rw [Nat.mod_eq_of_lt hb64]
  rw [show a + (2 ^ 64 - b) = (a - b) + 2 ^ 64 by omega]
  rw [Nat.add_mod_right]
  exact Nat.mod_eq_of_lt (by omega)

/-! ### What each engine case computes on a clean source with an infallible sink -/

theorem caseALoop_clean (mode : CountModeEnum) (n m : Nat) (bs : List Nat)
    (i : Nat) (out : List Nat) (him : i < m) :
    caseALoop mode n m (cleanSrc bs) i out none
      = .ok (out ++ posFilter mode n m bs i) := by
  induction bs generalizing i out with
  | nil => simp [caseALoop, cleanSrc, posFilter]
  | cons c r ih =>
    simp only [cleanSrc, List.map_cons] at ih ⊢
    by_cases hn : n ≤ i
    · simp only [caseALoop, if_pos hn, writeByte]
      by_cases hm : m ≤ i + count mode c
      · rw [if_pos hm]
        simp only [posFilter]
        rw [if_pos ⟨hn, him⟩, posFilter_stop mode n m r (i + count mode c) hm]
        simp
      · rw [if_neg hm, ih (i + count mode c) (out ++ [c]) (by omega)]
        simp only [posFilter]
        rw [if_pos ⟨hn, him⟩]
        simp
    · simp only [caseALoop, if_neg hn]
      by_cases hm : m ≤ i + count mode c
      · rw [if_pos hm]
        simp only [posFilter]
        rw [if_neg (by omega), posFilter_stop mode n m r (i + count mode c) hm]
        simp
      · rw [if_neg hm, ih (i + count mode c) out (by omega)]
        simp only [posFilter]
        rw [if_neg (by omega)]
        simp

theorem sliceStream_caseA (mode : CountModeEnum) (n m : Nat) (bs : List Nat)
    (h : n ≤ m) :
    sliceStream mode (.fromStart n) (.fromStart m) (cleanSrc bs) none
      = .ok (posFilter mode n m bs 0) := by
  by_cases he : n = m
  · subst he
    simp only [sliceStream]
    rw [if_pos (le_refl n), posFilter_empty_range mode n n bs 0 (le_refl n)]
  · have hlt : n < m := by omega
    simp only [sliceStream]
    rw [if_neg (by omega), caseALoop_clean mode n m bs 0 [] (by omega)]
    simp

theorem skipN_clean_append (n : Nat) (bs : List Nat) (rest : Src)
    (h : n ≤ bs.length) :
    skipN n (cleanSrc bs ++ rest) = .ok (some (cleanSrc (bs.drop n) ++ rest)) := by
  induction n generalizing bs with
  | zero => simp [skipN]
  | succ k ih =>
    cases bs with
    | nil => simp at h
    | cons c r =>
      simp only [cleanSrc, List.map_cons, List.cons_append, skipN, List.drop_succ_cons]
      exact ih r (by simpa using h)

theorem skipN_clean_short (n : Nat) (bs : List Nat) (h : bs.length < n) :
    skipN n (cleanSrc bs) = .ok none := by
  induction n generalizing bs with
  | zero => omega
  | succ k ih =>
    cases bs with
    | nil => rfl
    | cons c r =>
      simp only [cleanSrc, List.map_cons, skipN]
      exact ih r (by simpa using h)

theorem skipN_fail (n : Nat) (bs : List Nat) (junk : Src) (h : bs.length < n) :
    skipN n (cleanSrc bs ++ .fail :: junk) = .error .io := by
  induction n generalizing bs with
  | zero => omega
  | succ k ih =>
    cases bs with
    | nil => rfl
    | cons c r =>
      simp only [cleanSrc, List.map_cons, List.cons_append, skipN]
      exact ih r (by simpa using h)

theorem caseBPops_clean (mode : CountModeEnum) (m : Nat) (q : List Nat)
    (out : List Nat) :
    caseBPops mode m q (unitSum mode q) out none
      = .ok (maxTail mode m q, unitSum mode (maxTail mode m q),
          out ++ dropTail mode m q, none) := by
  induction q generalizing out with
  | nil => simp [caseBPops, unitSum, maxTail, dropTail]
  | cons c r ih =>
    by_cases h : unitSum mode (c :: r) ≤ m
    · simp only [caseBPops]
      rw [if_neg (by omega), maxTail_of_le mode m _ h, dropTail_of_le mode m _ h]
      simp
    · simp only [caseBPops]
      rw [if_pos (by omega)]
      simp only [writeByte]
      rw [show unitSum mode (c :: r) - count mode c = unitSum mode r by
        simp only [unitSum]; omega]
      rw [ih (out ++ [c])]
      rw [show maxTail mode m (c :: r) = maxTail mode m r by simp [maxTail, h]]
      rw [show dropTail mode m (c :: r) = c :: dropTail mode m r by simp [dropTail, h]]
      simp

theorem caseBLoop_clean (mode : CountModeEnum) (m : Nat) (bs : List Nat)
    (q : List Nat) (out : List Nat) (h : unitSum mode q ≤ m) :
    caseBLoop mode m (cleanSrc bs) q (unitSum mode q) out none
      = .ok (out ++ dropTail mode m (q ++ bs)) := by
  induction bs generalizing q out with
  | nil =>
    simp only [cleanSrc, List.map_nil, caseBLoop, List.append_nil]
    rw [dropTail_of_le mode m q h]
    simp
  | cons c r ih =>
    simp only [cleanSrc, List.map_cons, caseBLoop]
    rw [show unitSum mode q + count mode c = unitSum mode (q ++ [c]) by
      rw [unitSum_append]; simp [unitSum]]
    simp only [caseBPops_clean mode m (q ++ [c]) out]
    simp only [cleanSrc] at ih
    rw [ih (maxTail mode m (q ++ [c])) (out ++ dropTail mode m (q ++ [c]))
      (maxTail_sum_le mode m (q ++ [c]))]
    rw [show q ++ c :: r = (q ++ [c]) ++ r by simp]
    rw [dropTail_append_absorb mode m (q ++ [c]) r]
    simp

theorem sliceStream_caseB (mode : CountModeEnum) (n m : Nat) (bs : List Nat) :
    sliceStream mode (.fromStart n) (.fromEnd m) (cleanSrc bs) none
      = .ok (dropTail mode m (bs.drop n)) := by
  simp only [sliceStream]
  by_cases h : n ≤ bs.length
  · have hs := skipN_clean_append n bs [] h
    simp only [List.append_nil] at hs
    simp only [hs]
    have := caseBLoop_clean mode m (bs.drop n) [] [] (by simp [unitSum])
    simp only [unitSum, List.nil_append] at this
    rw [this]
  · simp only [skipN_clean_short n bs (by omega)]
    rw [show bs.drop n = [] from List.drop_eq_nil_of_le (by omega)]
    rfl

theorem caseCPops_clean (mode : CountModeEnum) (n : Nat) (q : List Nat) (i : Nat) :
    caseCPops mode n q (unitSum mode q) i
      = .ok (maxTail mode n q, unitSum mode (maxTail mode n q),
          i + unitSum mode (dropTail mode n q)) := by
  induction q generalizing i with
  | nil => simp [caseCPops, unitSum, maxTail, dropTail]
  | cons c r ih =>
    by_cases h : unitSum mode (c :: r) ≤ n
    · simp only [caseCPops]
      rw [if_neg (by omega), maxTail_of_le mode n _ h, dropTail_of_le mode n _ h]
      simp [unitSum]
    · simp only [caseCPops]
      rw [if_pos (by omega)]
      rw [show unitSum mode (c :: r) - count mode c = unitSum mode r by
        simp only [unitSum]; omega]
      rw [ih (i + count mode c)]
      rw [show maxTail mode n (c :: r) = maxTail mode n r by simp [maxTail, h]]
      rw [show dropTail mode n (c :: r) = c :: dropTail mode n r by simp [dropTail, h]]
      simp only [unitSum]
      rw [Nat.add_assoc]

theorem caseCLoop_clean (mode : CountModeEnum) (n : Nat) (bs : List Nat)
    (q : List Nat) (i : Nat) (h : unitSum mode q ≤ n) :
    caseCLoop mode n (cleanSrc bs) q (unitSum mode q) i
      = .ok (maxTail mode n (q ++ bs), unitSum mode (maxTail mode n (q ++ bs)),
          i + unitSum mode (dropTail mode n (q ++ bs))) := by
  induction bs generalizing q i with
  | nil =>
    simp only [cleanSrc, List.map_nil, caseCLoop, List.append_nil]
    rw [maxTail_of_le mode n q h, dropTail_of_le mode n q h]
    simp [unitSum]
  | cons c r ih =>
    simp only [cleanSrc, List.map_cons, caseCLoop]
    rw [show unitSum mode q + count mode c = unitSum mode (q ++ [c]) by
      rw [unitSum_append]; simp [unitSum]]
    simp only [caseCPops_clean mode n (q ++ [c]) i]
    simp only [cleanSrc] at ih
    rw [ih (maxTail mode n (q ++ [c])) (i + unitSum mode (dropTail mode n (q ++ [c])))
      (maxTail_sum_le mode n (q ++ [c]))]
    rw [show q ++ c :: r = (q ++ [c]) ++ r by simp]
    rw [maxTail_append_absorb mode n (q ++ [c]) r,
      dropTail_append_absorb mode n (q ++ [c]) r, unitSum_append, Nat.add_assoc]

theorem caseCEmit_clean (mode : CountModeEnum) (m : Nat) (q : List Nat)
    (i : Nat) (out : List Nat) :
    caseCEmit mode m q i out none = .ok (out ++ emitWhile mode m q i) := by
  induction q generalizing i out with
  | nil => simp [caseCEmit, emitWhile]
  | cons c r ih =>
    simp only [caseCEmit, emitWhile]
    by_cases h : i < m
    · rw [if_pos h, if_pos h]
      simp only [writeByte]
      rw [ih (i + count mode c) (out ++ [c])]
      simp
    · rw [if_neg h, if_neg h]
      simp

theorem sliceStream_caseC (mode : CountModeEnum) (n : Nat) (b : SliceIdx)
    (bs : List Nat) :
    sliceStream mode (.fromEnd n) b (cleanSrc bs) none
      = .ok (emitWhile mode
          (match b with
           | .fromStart m => m
           | .fromEnd m => wsub (unitSum mode (dropTail mode n bs) + n) m)
          (maxTail mode n bs) (unitSum mode (dropTail mode n bs))) := by
  simp only [sliceStream]
  have := caseCLoop_clean mode n bs [] 0 (by simp [unitSum])
  simp only [unitSum, List.nil_append, Nat.zero_add] at this
  simp only [this, caseCEmit_clean]
  simp

/-! ### The queue invariant and panic freedom -/

theorem writeByte_cases (snk : Sink) :
    writeByte snk = .error .io ∨ ∃ s, writeByte snk = .ok s := by
  cases snk with
  | none => exact Or.inr ⟨none, rfl⟩
  | some k =>
    cases k with
    | zero => exact Or.inl rfl
    | succ j => exact Or.inr ⟨some j, rfl⟩

theorem caseBPops_inv (mode : CountModeEnum) (m : Nat) (q : List Nat) (qn : Nat)
    (out : List Nat) (snk : Sink) (h : qn = unitSum mode q) :
    (∀ r, caseBPops mode m q qn out snk = .ok r → r.2.1 = unitSum mode r.1)
      ∧ caseBPops mode m q qn out snk ≠ .error .panicked := by
  induction q generalizing qn out snk with
  | nil =>
    subst h
    simp only [caseBPops, unitSum]
    rw [if_neg (by omega)]
    constructor
    · intro r hr
      cases hr
      rfl
    · intro hr
      cases hr
  | cons c q' ih =>
    subst h
    by_cases hm : m < unitSum mode (c :: q')
    · simp only [caseBPops, if_pos hm]
      rcases writeByte_cases snk with hw | ⟨s, hw⟩
      · simp only [hw]
        refine ⟨?_, ?_⟩
        · intro r hr
          cases hr
        · intro hr
          cases hr
      · simp only [hw]
        have heq : unitSum mode (c :: q') - count mode c = unitSum mode q' := by
          simp only [unitSum]; omega
        rw [heq]
        exact ih (unitSum mode q') (out ++ [c]) s rfl
    · simp only [caseBPops, if_neg hm]
      refine ⟨?_, ?_⟩
      · intro r hr
        cases hr
        rfl
      · intro hr
        cases hr

theorem caseBLoop_no_panic (mode : CountModeEnum) (m : Nat) (src : Src)
    (q : List Nat) (qn : Nat) (out : List Nat) (snk : Sink)
    (h : qn = unitSum mode q) :
    caseBLoop mode m src q qn out snk ≠ .error .panicked := by
  induction src generalizing q qn out snk with
  | nil => intro hr; cases hr
  | cons it rest ih =>
    cases it with
    | fail => intro hr; cases hr
    | byte c =>
      subst h
      have heq : unitSum mode q + count mode c = unitSum mode (q ++ [c]) := by
        rw [unitSum_append]; simp [unitSum]
      simp only [caseBLoop, heq]
      have hinv := caseBPops_inv mode m (q ++ [c]) (unitSum mode (q ++ [c])) out snk rfl
      cases hp : caseBPops mode m (q ++ [c]) (unitSum mode (q ++ [c])) out snk with
      | error e =>
        cases e with
        | io => intro hr; cases hr
        | panicked => exact absurd hp hinv.2
      | ok r =>
        obtain ⟨q', qn', out', snk'⟩ := r
        have := hinv.1 _ hp
        simp only at this
        exact ih q' qn' out' snk' this

theorem caseCPops_inv (mode : CountModeEnum) (n : Nat) (q : List Nat) (qn i : Nat)
    (h : qn = unitSum mode q) :
    (∀ r, caseCPops mode n q qn i = .ok r → r.2.1 = unitSum mode r.1)
      ∧ caseCPops mode n q qn i ≠ .error .panicked := by
  induction q generalizing qn i with
  | nil =>
    subst h
    simp only [caseCPops, unitSum]
    rw [if_neg (by omega)]
    constructor
    · intro r hr
      cases hr
      rfl
    · intro hr
      cases hr
  | cons c q' ih =>
    subst h
    by_cases hn : n < unitSum mode (c :: q')
    · simp only [caseCPops, if_pos hn]
      have heq : unitSum mode (c :: q') - count mode c = unitSum mode q' := by
        simp only [unitSum]; omega
      rw [heq]
      exact ih (unitSum mode q') (i + count mode c) rfl
    · simp only [caseCPops, if_neg hn]
      refine ⟨?_, ?_⟩
      · intro r hr
        cases hr
        rfl
      · intro hr
        cases hr

theorem caseCLoop_no_panic (mode : CountModeEnum) (n : Nat) (src : Src)
    (q : List Nat) (qn i : Nat) (h : qn = unitSum mode q) :
    caseCLoop mode n src q qn i ≠ .error .panicked := by
  induction src generalizing q qn i with
  | nil => intro hr; cases hr
  | cons it rest ih =>
    cases it with
    | fail => intro hr; cases hr
    | byte c =>
      subst h
      have heq : unitSum mode q + count mode c = unitSum mode (q ++ [c]) := by
        rw [unitSum_append]; simp [unitSum]
      simp only [caseCLoop, heq]
      have hinv := caseCPops_inv mode n (q ++ [c]) (unitSum mode (q ++ [c])) i rfl
      cases hp : caseCPops mode n (q ++ [c]) (unitSum mode (q ++ [c])) i with
      | error e =>
        cases e with
        | io => intro hr; cases hr
        | panicked => exact absurd hp hinv.2
      | ok r =>
        obtain ⟨q', qn', i'⟩ := r
        have := hinv.1 _ hp
        simp only at this
        exact ih q' qn' i' this

theorem caseALoop_no_panic (mode : CountModeEnum) (n m : Nat) (src : Src)
    (i : Nat) (out : List Nat) (snk : Sink) :
    caseALoop mode n m src i out snk ≠ .error .panicked := by
  induction src generalizing i out snk with
  | nil => intro hr; cases hr
  | cons it rest ih =>
    cases it with
    | fail => intro hr; cases hr
    | byte c =>
      simp only [caseALoop]
      by_cases hn : n ≤ i
      · rw [if_pos hn]
        rcases writeByte_cases snk with hw | ⟨s, hw⟩
        · simp only [hw]
          intro hr; cases hr
        · simp only [hw]
          by_cases hm : m ≤ i + count mode c
          · rw [if_pos hm]
            intro hr; cases hr
          · rw [if_neg hm]
            exact ih (i + count mode c) (out ++ [c]) s
      · rw [if_neg hn]
        by_cases hm : m ≤ i + count mode c
        · rw [if_pos hm]
          intro hr; cases hr
        · rw [if_neg hm]
          exact ih (i + count mode c) out snk

theorem caseCEmit_no_panic (mode : CountModeEnum) (m : Nat) (q : List Nat)
    (i : Nat) (out : List Nat) (snk : Sink) :
    caseCEmit mode m q i out snk ≠ .error .panicked := by
  induction q generalizing i out snk with
  | nil => intro hr; cases hr
  | cons c q' ih =>
    simp only [caseCEmit]
    by_cases hi : i < m
    · rw [if_pos hi]
      rcases writeByte_cases snk with hw | ⟨s, hw⟩
      · simp only [hw]
        intro hr; cases hr
      · simp only [hw]
        exact ih (i + count mode c) (out ++ [c]) s
    · rw [if_neg hi]
      intro hr; cases hr

theorem skipN_no_panic (n : Nat) (src : Src) :
    skipN n src ≠ .error .panicked := by
  induction n generalizing src with
  | zero => intro hr; cases hr
  | succ k ih =>
    cases src with
    | nil => intro hr; cases hr
    | cons it rest =>
      cases it with
      | fail => intro hr; cases hr
      | byte c => exact ih rest

theorem sliceStream_no_panic (mode : CountModeEnum) (a b : SliceIdx) (src : Src)
    (snk : Sink) : sliceStream mode a b src snk ≠ .error .panicked := by
  cases a with
  | fromStart n =>
    cases b with
    | fromStart m =>
      simp only [sliceStream]
      by_cases h : n ≥ m
      · rw [if_pos h]
        intro hr; cases hr
      · rw [if_neg h]
        exact caseALoop_no_panic mode n m src 0 [] snk
    | fromEnd m =>
      simp only [sliceStream]
      cases hs : skipN n src with
      | error e =>
        have := skipN_no_panic n src
        cases e with
        | io => intro hr; cases hr
        | panicked => exact absurd hs this
      | ok o =>
        cases o with
        | none => intro hr; cases hr
        | some src' => exact caseBLoop_no_panic mode m src' [] 0 [] snk rfl
  | fromEnd n =>
    simp only [sliceStream]
    cases hc : caseCLoop mode n src [] 0 0 with
    | error e =>
      have := caseCLoop_no_panic mode n src [] 0 0 rfl
      cases e with
      | io => intro hr; cases hr
      | panicked => exact absurd hc this
    | ok r =>
      obtain ⟨q, qn, i⟩ := r
      exact caseCEmit_no_panic mode _ q i [] snk

/-! ### Read errors propagate; clean end-of-input succeeds -/

theorem sliceStream_clean_ok (mode : CountModeEnum) (a b : SliceIdx) (bs : List Nat) :
    ∃ out, sliceStream mode a b (cleanSrc bs) none = .ok out := by
  cases a with
  | fromStart n =>
    cases b with
    | fromStart m =>
      by_cases h : n ≥ m
      · exact ⟨[], by simp [sliceStream, if_pos h]⟩
      · exact ⟨posFilter mode n m bs 0, sliceStream_caseA mode n m bs (by omega)⟩
    | fromEnd m => exact ⟨_, sliceStream_caseB mode n m bs⟩
  | fromEnd n => exact ⟨_, sliceStream_caseC mode n b bs⟩

theorem caseALoop_err (mode : CountModeEnum) (n m : Nat) (bs : List Nat)
    (junk : Src) (i : Nat) (out : List Nat) :
    caseALoop mode n m (cleanSrc bs ++ .fail :: junk) i out none = .error .io
      ∨ caseALoop mode n m (cleanSrc bs ++ .fail :: junk) i out none
          = caseALoop mode n m (cleanSrc bs) i out none := by
  induction bs generalizing i out with
  | nil => exact Or.inl rfl
  | cons c r ih =>
    simp only [cleanSrc, List.map_cons, List.cons_append, caseALoop, writeByte]
    by_cases hn : n ≤ i
    · rw [if_pos hn, if_pos hn]
      by_cases hm : m ≤ i + count mode c
      · rw [if_pos hm, if_pos hm]
        exact Or.inr rfl
      · rw [if_neg hm, if_neg hm]
        exact ih (i + count mode c) (out ++ [c])
    · rw [if_neg hn, if_neg hn]
      by_cases hm : m ≤ i + count mode c
      · rw [if_pos hm, if_pos hm]
        exact Or.inr rfl
      · rw [if_neg hm, if_neg hm]
        exact ih (i + count mode c) out

theorem caseBLoop_err (mode : CountModeEnum) (m : Nat) (bs : List Nat)
    (junk : Src) (q : List Nat) (out : List Nat) :
    caseBLoop mode m (cleanSrc bs ++ .fail :: junk) q (unitSum mode q) out none
      = .error .io := by
  induction bs generalizing q out with
  | nil => rfl
  | cons c r ih =>
    simp only [cleanSrc, List.map_cons, List.cons_append, caseBLoop]
    rw [show unitSum mode q + count mode c = unitSum mode (q ++ [c]) by
      rw [unitSum_append]; simp [unitSum]]
    simp only [caseBPops_clean mode m (q ++ [c]) out]
    simp only [cleanSrc] at ih
    exact ih (maxTail mode m (q ++ [c])) (out ++ dropTail mode m (q ++ [c]))

theorem caseCLoop_err (mode : CountModeEnum) (n : Nat) (bs : List Nat)
    (junk : Src) (q : List Nat) (i : Nat) :
    caseCLoop mode n (cleanSrc bs ++ .fail :: junk) q (unitSum mode q) i
      = .error .io := by
  induction bs generalizing q i with
  | nil => rfl
  | cons c r ih =>
    simp only [cleanSrc, List.map_cons, List.cons_append, caseCLoop]
    rw [show unitSum mode q + count mode c = unitSum mode (q ++ [c]) by
      rw [unitSum_append]; simp [unitSum]]
    simp only [caseCPops_clean mode n (q ++ [c]) i]
    simp only [cleanSrc] at ih
    exact ih (maxTail mode n (q ++ [c])) (i + unitSum mode (dropTail mode n (q ++ [c])))

theorem sliceStream_err (mode : CountModeEnum) (a b : SliceIdx) (bs : List Nat)
    (junk : Src) :
    sliceStream mode a b (cleanSrc bs ++ .fail :: junk) none = .error .io
      ∨ sliceStream mode a b (cleanSrc bs ++ .fail :: junk) none
          = sliceStream mode a b (cleanSrc bs) none := by
  cases a with
  | fromStart n =>
    cases b with
    | fromStart m =>
      by_cases h : n ≥ m
      · simp only [sliceStream, if_pos h]
        exact Or.inr trivial
      · simp only [sliceStream, if_neg h]
        exact caseALoop_err mode n m bs junk 0 []
    | fromEnd m =>
      simp only [sliceStream]
      by_cases h : n ≤ bs.length
      · simp only [skipN_clean_append n bs (.fail :: junk) h]
        have := caseBLoop_err mode m (bs.drop n) junk [] []
        simp only [unitSum] at this
        rw [this]
        exact Or.inl rfl
      · simp only [skipN_fail n bs junk (by omega)]
        exact Or.inl trivial
  | fromEnd n =>
    simp only [sliceStream]
    have := caseCLoop_err mode n bs junk [] 0
    simp only [unitSum] at this
    simp only [this]
    exact Or.inl trivial

/-! ### Write errors propagate -/

theorem writeByte_none : writeByte none = .ok none := rfl

theorem writeByte_zero : writeByte (some 0) = .error .io := rfl

theorem writeByte_succ (k : Nat) : writeByte (some (k + 1)) = .ok (some k) := rfl

theorem caseALoop_budget (mode : CountModeEnum) (n m : Nat) (bs : List Nat)
    (i : Nat) (out : List Nat) (k : Nat) :
    caseALoop mode n m (cleanSrc bs) i out (some k) = .error .io
      ∨ caseALoop mode n m (cleanSrc bs) i out (some k)
          = caseALoop mode n m (cleanSrc bs) i out none := by
  induction bs generalizing i out k with
  | nil => exact Or.inr rfl
  | cons c r ih =>
    simp only [cleanSrc, List.map_cons, caseALoop]
    by_cases hn : n ≤ i
    · rw [if_pos hn, if_pos hn]
      cases k with
      | zero =>
        simp only [writeByte_zero]
        exact Or.inl trivial
      | succ j =>
        simp only [writeByte_succ, writeByte_none]
        by_cases hm : m ≤ i + count mode c
        · rw [if_pos hm, if_pos hm]
          exact Or.inr rfl
        · rw [if_neg hm, if_neg hm]
          exact ih (i + count mode c) (out ++ [c]) j
    · rw [if_neg hn, if_neg hn]
      by_cases hm : m ≤ i + count mode c
      · rw [if_pos hm, if_pos hm]
        exact Or.inr rfl
      · rw [if_neg hm, if_neg hm]
        exact ih (i + count mode c) out k

theorem caseBPops_budget (mode : CountModeEnum) (m : Nat) (q : List Nat)
    (out : List Nat) (k : Nat) :
    caseBPops mode m q (unitSum mode q) out (some k) = .error .io
      ∨ ∃ k', caseBPops mode m q (unitSum mode q) out (some k)
          = .ok (maxTail mode m q, unitSum mode (maxTail mode m q),
              out ++ dropTail mode m q, some k') := by
  induction q generalizing out k with
  | nil =>
    refine Or.inr ⟨k, ?_⟩
    simp [caseBPops, unitSum, maxTail, dropTail]
  | cons c r ih =>
    by_cases h : unitSum mode (c :: r) ≤ m
    · refine Or.inr ⟨k, ?_⟩
      simp only [caseBPops]
      rw [if_neg (by omega), maxTail_of_le mode m _ h, dropTail_of_le mode m _ h]
      simp
    · simp only [caseBPops]
      rw [if_pos (by omega)]
      cases k with
      | zero => exact Or.inl rfl
      | succ j =>
        simp only [writeByte]
        rw [show unitSum mode (c :: r) - count mode c = unitSum mode r by
          simp only [unitSum]; omega]
        rcases ih (out ++ [c]) j with hl | ⟨k', hr⟩
        · rw [hl]
          exact Or.inl rfl
        · rw [hr]
          refine Or.inr ⟨k', ?_⟩
          rw [show maxTail mode m (c :: r) = maxTail mode m r by simp [maxTail, h]]
          rw [show dropTail mode m (c :: r) = c :: dropTail mode m r by
            simp [dropTail, h]]
          simp

theorem caseBLoop_budget (mode : CountModeEnum) (m : Nat) (bs : List Nat)
    (q : List Nat) (out : List Nat) (k : Nat) (h : unitSum mode q ≤ m) :
    caseBLoop mode m (cleanSrc bs) q (unitSum mode q) out (some k) = .error .io
      ∨ caseBLoop mode m (cleanSrc bs) q (unitSum mode q) out (some k)
          = .ok (out ++ dropTail mode m (q ++ bs)) := by
  induction bs generalizing q out k with
  | nil =>
    refine Or.inr ?_
    simp only [cleanSrc, List.map_nil, caseBLoop, List.append_nil]
    rw [dropTail_of_le mode m q h]
    simp
  | cons c r ih =>
    simp only [cleanSrc, List.map_cons, caseBLoop]
    rw [show unitSum mode q + count mode c = unitSum mode (q ++ [c]) by
      rw [unitSum_append]; simp [unitSum]]
    rcases caseBPops_budget mode m (q ++ [c]) out k with hl | ⟨k', hr⟩
    · simp only [hl]
      exact Or.inl trivial
    · simp only [hr]
      simp only [cleanSrc] at ih
      rcases ih (maxTail mode m (q ++ [c])) (out ++ dropTail mode m (q ++ [c])) k'
          (maxTail_sum_le mode m (q ++ [c])) with hl2 | hr2
      · rw [hl2]
        exact Or.inl rfl
      · rw [hr2]
        refine Or.inr ?_
        rw [show q ++ c :: r = (q ++ [c]) ++ r by simp]
        rw [dropTail_append_absorb mode m (q ++ [c]) r]
        simp

theorem caseCEmit_budget (mode : CountModeEnum) (m : Nat) (q : List Nat)
    (i : Nat) (out : List Nat) (k : Nat) :
    caseCEmit mode m q i out (some k) = .error .io
      ∨ caseCEmit mode m q i out (some k) = .ok (out ++ emitWhile mode m q i) := by
  induction q generalizing i out k with
  | nil => exact Or.inr (by simp [caseCEmit, emitWhile])
  | cons c r ih =>
    simp only [caseCEmit, emitWhile]
    by_cases hi : i < m
    · rw [if_pos hi, if_pos hi]
      cases k with
      | zero => exact Or.inl rfl
      | succ j =>
        simp only [writeByte]
        rcases ih (i + count mode c) (out ++ [c]) j with hl | hr
        · rw [hl]
          exact Or.inl rfl
        · rw [hr]
          exact Or.inr (by simp)
    · rw [if_neg hi, if_neg hi]
      exact Or.inr (by simp)

theorem sliceStream_budget (mode : CountModeEnum) (a b : SliceIdx) (bs : List Nat)
    (k : Nat) :
    sliceStream mode a b (cleanSrc bs) (some k) = .error .io
      ∨ sliceStream mode a b (cleanSrc bs) (some k)
          = sliceStream mode a b (cleanSrc bs) none := by
  cases a with
  | fromStart n =>
    cases b with
    | fromStart m =>
      by_cases h : n ≥ m
      · simp only [sliceStream, if_pos h]
        exact Or.inr trivial
      · simp only [sliceStream, if_neg h]
        exact caseALoop_budget mode n m bs 0 [] k
    | fromEnd m =>
      rw [sliceStream_caseB mode n m bs]
      simp only [sliceStream]
      by_cases h : n ≤ bs.length
      · have hs := skipN_clean_append n bs [] h
        simp only [List.append_nil] at hs
        simp only [hs]
        have := caseBLoop_budget mode m (bs.drop n) [] [] k (by simp [unitSum])
        simp only [unitSum, List.nil_append] at this
        exact this
      · simp only [skipN_clean_short n bs (by omega)]
        rw [show bs.drop n = [] from List.drop_eq_nil_of_le (by omega)]
        exact Or.inr rfl
  | fromEnd n =>
    rw [sliceStream_caseC mode n b bs]
    simp only [sliceStream]
    have := caseCLoop_clean mode n bs [] 0 (by simp [unitSum])
    simp only [unitSum, List.nil_append, Nat.zero_add] at this
    simp only [this]
    exact caseCEmit_budget mode _ (maxTail mode n bs)
      (unitSum mode (dropTail mode n bs)) [] k

/-! ### Remaining support for the trailing-units characterisation -/

theorem maxTail_sum_eq (mode : CountModeEnum) (m : Nat) (l : List Nat)
    (h : m ≤ unitSum mode l) : unitSum mode (maxTail mode m l) = m := by
  induction l with
  | nil =>
    simp only [unitSum] at h
    simp only [maxTail, unitSum]
    omega
  | cons c r ih =>
    by_cases hle : unitSum mode (c :: r) ≤ m
    · rw [maxTail_of_le mode m _ hle]
      omega
    · rw [show maxTail mode m (c :: r) = maxTail mode m r by simp [maxTail, hle]]
      apply ih
      have := count_le_one mode c
      simp only [unitSum] at hle h
      omega

theorem unitSum_dropTail_add (mode : CountModeEnum) (m : Nat) (l : List Nat) :
    unitSum mode (dropTail mode m l) + unitSum mode (maxTail mode m l)
      = unitSum mode l := by
  rw [← unitSum_append, dropTail_append_maxTail]

/-! ## The claims -/

/-- Claim C1: for all `n ≤ m`, range `n:m` (both boundaries start-anchored,
Case A) emits exactly the units `[n, m)`: in byte mode the exact byte substring
`[n, m)` when the input is at least `m` bytes long, and in line mode the bytes
whose 0-indexed line number (delimiters strictly before them, each line owning
its trailing delimiter) lies in `[n, m)`. -/
theorem claim_C1 (n m : Nat) (input : List Nat) (hnm : n ≤ m) :
    (m ≤ input.length →
      sliceStream .byte (.fromStart n) (.fromStart m) (cleanSrc input) none
        = .ok ((input.take m).drop n))
    ∧ sliceStream .line (.fromStart n) (.fromStart m) (cleanSrc input) none
        = .ok (posFilter .line n m input 0) := by
  constructor
  · intro _hlen
    rw [sliceStream_caseA .byte n m input hnm, posFilter_byte n m input 0]
    simp
  · exact sliceStream_caseA .line n m input hnm

/-- Claim C1, witness: range `1:3` on the four bytes `104 105 10 106`; byte
mode yields bytes `[1, 3)` and line mode yields the single byte on line 1. -/
theorem claim_C1_witness :
    sliceStream .byte (.fromStart 1) (.fromStart 3)
        (cleanSrc [104, 105, 10, 106]) none = .ok [105, 10]
    ∧ sliceStream .line (.fromStart 1) (.fromStart 3)
        (cleanSrc [104, 105, 10, 106]) none = .ok [106] :=
  ⟨((claim_C1 1 3 [104, 105, 10, 106] (by decide)).1 (by decide)).trans rfl,
   ((claim_C1 1 3 [104, 105, 10, 106] (by decide)).2).trans rfl⟩

/-- Claim C2 (code bug): the byte-mode seekable fast path and the streaming
engine are *not* byte-identical on every range.  On the one-byte file `[97]`
with range `-2:-1`, the fast path clamps both offsets to `0` and emits
nothing, while the streaming engine (Case C) computes its emission bound as
`i + n - m = 0 + 2 - 1 = 1` without clamping the start to the stream length
and emits the byte `97`. -/
theorem claim_C2 :
    fastPath (.fromEnd 2) (.fromEnd 1) [97] = []
      ∧ sliceStream .byte (.fromEnd 2) (.fromEnd 1) (cleanSrc [97]) none = .ok [97]
      ∧ ([97] : List Nat) ≠ [] :=
  ⟨rfl, rfl, by decide⟩

/-- Claim C3 (code bug): with resolved, clamped start `≥` resolved end the
output is *not* always empty.  On the two-byte input `[97, 98]`, byte mode,
range `-1:-5`, the resolved start is `2 - 1 = 1` and the resolved end clamps
to `0`, yet Case C's emission bound `i + n - m = 1 + 1 - 5` underflows
(wrapping in a release build, a subtraction-overflow panic in a debug build)
and the engine emits the byte `98`. -/
theorem claim_C3 :
    sliceStream .byte (.fromEnd 1) (.fromEnd 5) (cleanSrc [97, 98]) none = .ok [98]
      ∧ ([98] : List Nat) ≠ [] :=
  ⟨rfl, by decide⟩

/-- Claim C4: in both modes, range `-n:` on an input with at least `n` units
emits exactly the trailing `n` units — the bytes whose unit position lies in
`[T - n, T)` for `T` the total unit count — and on an input with fewer than
`n` units emits the entire input.  The size bounds keep the `usize` modular
arithmetic of the emission bound exact. -/
theorem claim_C4 (mode : CountModeEnum) (n : Nat) (input : List Nat)
    (hlen : input.length < 2 ^ 64) (hn : n < 2 ^ 64) :
    (n ≤ unitSum mode input →
      sliceStream mode (.fromEnd n) (.fromEnd 0) (cleanSrc input) none
        = .ok (posFilter mode (unitSum mode input - n) (unitSum mode input) input 0))
    ∧ (unitSum mode input < n →
      sliceStream mode (.fromEnd n) (.fromEnd 0) (cleanSrc input) none = .ok input) := by
  have hT : unitSum mode input ≤ input.length := unitSum_le_length mode input
  constructor
  · intro h
    simp only [sliceStream_caseC mode n (.fromEnd 0) input]
    have hmax : unitSum mode (maxTail mode n input) = n :=
      maxTail_sum_eq mode n input h
    have hdrop : unitSum mode (dropTail mode n input) = unitSum mode input - n := by
      have := unitSum_dropTail_add mode n input
      omega
    have hw : wsub (unitSum mode (dropTail mode n input) + n) 0
        = unitSum mode input := by
      rw [wsub_eq _ 0 (Nat.zero_le _) (by omega), hdrop]
      omega
    rw [hw]
    refine congrArg Except.ok ?_
    have hsplit := posFilter_append mode (unitSum mode input - n) (unitSum mode input)
      (dropTail mode n input) (maxTail mode n input) 0
    rw [dropTail_append_maxTail mode n input] at hsplit
    rw [hsplit]
    rw [posFilter_dropTail mode n _ _ input 0 (by omega)]
    rw [posFilter_eq_emitWhile mode _ _ (maxTail mode n input)
      (0 + unitSum mode (dropTail mode n input)) (by omega)]
    rw [List.nil_append, Nat.zero_add]
  · intro h
    simp only [sliceStream_caseC mode n (.fromEnd 0) input]
    rw [dropTail_of_le mode n input (by omega), maxTail_of_le mode n input (by omega)]
    simp only [unitSum, Nat.zero_add]
    rw [wsub_eq n 0 (Nat.zero_le _) hn]
    rw [emitWhile_all mode (n - 0) input 0 (by omega)]

/-- Claim C4, witness: byte mode on `[1, 2, 3]`: range `-2:` yields the
trailing two bytes, and range `-5:` yields the whole input. -/
theorem claim_C4_witness :
    sliceStream .byte (.fromEnd 2) (.fromEnd 0) (cleanSrc [1, 2, 3]) none
        = .ok [2, 3]
    ∧ sliceStream .byte (.fromEnd 5) (.fromEnd 0) (cleanSrc [1, 2, 3]) none
        = .ok [1, 2, 3] :=
  ⟨((claim_C4 .byte 2 [1, 2, 3] (by norm_num) (by norm_num)).1 (by decide)).trans rfl,
   ((claim_C4 .byte 5 [1, 2, 3] (by norm_num) (by norm_num)).2 (by decide)).trans rfl⟩

/-- Claim C5 (code bug): resolving the range `-2:+5` — end part `+5` against
the resolved start `FromEnd 2` — does not report any overflow error: the
`usize` subtraction `2 - 5` silently wraps (in a release build) to the
unrelated large offset `2^64 - 3`; a debug build panics instead.  No
`RangeOverflow` error exists anywhere in the program. -/
theorem claim_C5 :
    resolveEnd (.fromEnd 2) (.plus 5) = .fromEnd (2 ^ 64 - 3) := rfl

/-- Claim C6: in Case B (start-anchored start, end-anchored end) the engine
first discards exactly `n` raw bytes of the stream, in raw-byte count and not
in units: for every mode the result equals running the same case with start
`0` on the input with its first `n` bytes dropped.  Concretely, in line mode
`2:-3` on `"ab\ncd\nef\ngh\n"` skips the two bytes `ab` and emits `"\n"`,
whereas the same window applied after dropping two *lines* emits nothing. -/
theorem claim_C6 :
    (∀ (mode : CountModeEnum) (n m : Nat) (input : List Nat),
      sliceStream mode (.fromStart n) (.fromEnd m) (cleanSrc input) none
        = sliceStream mode (.fromStart 0) (.fromEnd m) (cleanSrc (input.drop n)) none)
    ∧ sliceStream .line (.fromStart 2) (.fromEnd 3)
        (cleanSrc [97, 98, 10, 99, 100, 10, 101, 102, 10, 103, 104, 10]) none
        = .ok [10]
    ∧ sliceStream .line (.fromStart 0) (.fromEnd 3)
        (cleanSrc [101, 102, 10, 103, 104, 10]) none = .ok [] := by
  refine ⟨?_, rfl, rfl⟩
  intro mode n m input
  rw [sliceStream_caseB mode n m input, sliceStream_caseB mode 0 m (input.drop n)]
  rw [List.drop_zero]

/-- Claim C7 (as stated, refuted): on the bytes of `"hello\nworld\n"`, byte
mode, range `-5:`, the output is the trailing *five* bytes `"orld\n"`, which
is not the six-byte string `"world\n"` the specification predicts. -/
theorem claim_C7_counterexample :
    sliceStream .byte (.fromEnd 5) (.fromEnd 0)
        (cleanSrc [104, 101, 108, 108, 111, 10, 119, 111, 114, 108, 100, 10]) none
      = .ok [111, 114, 108, 100, 10]
    ∧ [111, 114, 108, 100, 10] ≠ [119, 111, 114, 108, 100, 10] :=
  ⟨rfl, by decide⟩

/-- Claim C7, amended: on the bytes of `"hello\nworld\n"`, byte mode, range
`-5:`, both the streaming engine and the seekable fast path output the
trailing five bytes `"orld\n"`. -/
theorem claim_C7 :
    sliceStream .byte (.fromEnd 5) (.fromEnd 0)
        (cleanSrc [104, 101, 108, 108, 111, 10, 119, 111, 114, 108, 100, 10]) none
      = .ok [111, 114, 108, 100, 10]
    ∧ fastPath (.fromEnd 5) (.fromEnd 0)
        [104, 101, 108, 108, 111, 10, 119, 111, 114, 108, 100, 10]
      = [111, 114, 108, 100, 10] :=
  ⟨rfl, rfl⟩

/-- Claim C8: in every case of the engine, clean end-of-input is not an error
(the run returns a successful result); a failing read propagates as an I/O
error unless the engine had already finished without reaching it; and a
failing write likewise propagates as an I/O error unless the run never
exceeds the sink's budget, in which case the output is unchanged. -/
theorem claim_C8 :
    (∀ (mode : CountModeEnum) (a b : SliceIdx) (bs : List Nat),
      ∃ out, sliceStream mode a b (cleanSrc bs) none = .ok out)
    ∧ (∀ (mode : CountModeEnum) (a b : SliceIdx) (bs : List Nat) (junk : Src),
      sliceStream mode a b (cleanSrc bs ++ .fail :: junk) none = .error .io
        ∨ sliceStream mode a b (cleanSrc bs ++ .fail :: junk) none
            = sliceStream mode a b (cleanSrc bs) none)
    ∧ (∀ (mode : CountModeEnum) (a b : SliceIdx) (bs : List Nat) (k : Nat),
      sliceStream mode a b (cleanSrc bs) (some k) = .error .io
        ∨ sliceStream mode a b (cleanSrc bs) (some k)
            = sliceStream mode a b (cleanSrc bs) none) :=
  ⟨sliceStream_clean_ok, sliceStream_err, sliceStream_budget⟩

/-- Claim C9: in Cases B and C, whenever the running count `qn` equals the
total unit count of the queue, the pop loops preserve that invariant, and no
loop of the engine ever pops an empty queue: the `unwrap` panic is
unreachable from any entry of `slice_stream`. -/
theorem claim_C9 :
    (∀ (mode : CountModeEnum) (m : Nat) (q : List Nat) (qn : Nat) (out : List Nat)
        (snk : Sink) (r : List Nat × Nat × List Nat × Sink), qn = unitSum mode q →
      caseBPops mode m q qn out snk = .ok r → r.2.1 = unitSum mode r.1)
    ∧ (∀ (mode : CountModeEnum) (n : Nat) (q : List Nat) (qn i : Nat)
        (r : List Nat × Nat × Nat), qn = unitSum mode q →
      caseCPops mode n q qn i = .ok r → r.2.1 = unitSum mode r.1)
    ∧ (∀ (mode : CountModeEnum) (m : Nat) (src : Src) (q : List Nat) (qn : Nat)
        (out : List Nat) (snk : Sink), qn = unitSum mode q →
      caseBLoop mode m src q qn out snk ≠ .error .panicked)
    ∧ (∀ (mode : CountModeEnum) (n : Nat) (src : Src) (q : List Nat) (qn i : Nat),
      qn = unitSum mode q → caseCLoop mode n src q qn i ≠ .error .panicked)
    ∧ (∀ (mode : CountModeEnum) (a b : SliceIdx) (src : Src) (snk : Sink),
      sliceStream mode a b src snk ≠ .error .panicked) :=
  ⟨fun mode m q qn out snk r h => (caseBPops_inv mode m q qn out snk h).1 r,
   fun mode n q qn i r h => (caseCPops_inv mode n q qn i h).1 r,
   fun mode m src q qn out snk h => caseBLoop_no_panic mode m src q qn out snk h,
   fun mode n src q qn i h => caseCLoop_no_panic mode n src q qn i h,
   sliceStream_no_panic⟩

/-- Claim C9, witness: a concrete Case B run and a concrete pop-loop
invariant instance. -/
theorem claim_C9_witness :
    caseBLoop .line 0 (cleanSrc [97, 10]) [] 0 [] none ≠ .error .panicked
    ∧ ∀ r, caseBPops .line 0 [10] 1 [] none = .ok r → r.2.1 = unitSum .line r.1 :=
  ⟨claim_C9.2.2.1 .line 0 (cleanSrc [97, 10]) [] 0 [] none rfl,
   fun r => claim_C9.1 .line 0 [10] 1 [] none r rfl⟩

/-- Claim C10: in line mode with an end-anchored end boundary `FromEnd m`,
Case B emits the skipped input minus its longest suffix holding at most `m`
units; that suffix always contains the delimiter-free tail (the final
unterminated line, which counts 0 units), so the unterminated line is never
emitted — and the default range `0:` on the unterminated input `"abc"`
outputs nothing rather than reproducing the input. -/
theorem claim_C10 :
    (∀ (n m : Nat) (input : List Nat),
      sliceStream .line (.fromStart n) (.fromEnd m) (cleanSrc input) none
        = .ok (dropTail .line m (input.drop n)))
    ∧ (∀ (n m : Nat) (input : List Nat),
      dropTail .line m (input.drop n) ++ maxTail .line m (input.drop n)
          = input.drop n
        ∧ unitSum .line (maxTail .line m (input.drop n)) ≤ m)
    ∧ (∀ (n m : Nat) (input : List Nat),
      (maxTail .line 0 (input.drop n)).IsSuffix (maxTail .line m (input.drop n)))
    ∧ sliceStream .line (.fromStart 0) (.fromEnd 0) (cleanSrc [97, 98, 99]) none
        = .ok []
    ∧ [97, 98, 99] ≠ ([] : List Nat) :=
  ⟨fun n m input => sliceStream_caseB .line n m input,
   fun n m input => ⟨dropTail_append_maxTail .line m (input.drop n),
     maxTail_sum_le .line m (input.drop n)⟩,
   fun n m input => maxTail_suffix_mono .line 0 m (input.drop n) (Nat.zero_le m),
   rfl, by decide⟩

end Slice
